import Mathlib

/-!
# Verification of the tricorder metrics registry core

A shallow embedding, in Lean 4, of the tricorder library (a Go in-process
telemetry registry): the bucketed distribution (histogram) with its median
estimator, and the hierarchical metrics namespace with registration, lookup
and traversal.

Modelling conventions:

* Go `float64` values are modelled as exact rationals (`ℚ`).  Every claim
  checked here concerns comparisons, bucket bookkeeping and interpolation at
  exactly representable inputs, none of which hinge on IEEE rounding.
* Go `uint64` counters are modelled as `ℕ`; they are only ever incremented
  by one per observation.
* Go strings are modelled as `List Char` (a byte/character sequence); the
  path parser is a function on character lists mirroring `strings.Split`
  plus the whitespace-trim filter.
* The mutable directory tree (maps plus parent pointers) is modelled as an
  immutable rose tree of association lists; mutation through a pointer into
  the tree becomes a functional update at the node's path, and a node's
  identity is its path from the root (nodes are never reparented, so this
  is faithful).  A Go `map[string]*listEntry` has no observable order, and
  `List()` sorts, so an association list is an observationally faithful
  model of the map.
-/

/-! ## Bucketer and distribution (`bucketPiece`, `distribution`) -/

/-- `bucketPiece` from the source: a single range in a distribution.
`Start` is inclusive, `End` exclusive; `First` marks the `< End` range and
`Last` the `>= Start` range.  Unset fields keep Go's zero value `0`. -/
structure bucketPiece where
  Start : ℚ
  End : ℚ
  First : Bool
  Last : Bool
deriving Repr, DecidableEq

instance : Inhabited bucketPiece := ⟨⟨0, 0, false, false⟩⟩

/-- `distribution` from the source (the `sync.RWMutex` guards concurrent
access in Go and has no functional content; every operation below is the
body of one exclusive or shared critical section). -/
structure distribution where
  pieces : List bucketPiece
  counts : List ℕ
  total : ℚ
  min : ℚ
  max : ℚ
  count : ℕ
deriving Repr

/-- `findDistributionIndex`: the source runs
`sort.Search(len(pieces)-1, func(i) { return value < pieces[i].End })`,
which for a monotone predicate (guaranteed by the ascending cut points a
`Bucketer` carries) returns the least `i < len(pieces)-1` with
`value < pieces[i].End`, or `len(pieces)-1` when there is none.
`List.findIdx` over `pieces.dropLast` computes exactly that value
(`findIdx` returns the list length when no element matches). -/
def findDistributionIndex (pieces : List bucketPiece) (value : ℚ) : ℕ :=
  List.findIdx (fun p => decide (value < p.End)) pieces.dropLast

/-- `distribution.Add` from the source: find the bucket index, bump its
count, add to the running total, update min/max (first observation sets
both), and bump the observation count. -/
def distribution.Add (d : distribution) (value : ℚ) : distribution :=
  let idx := findDistributionIndex d.pieces value
  { d with
    counts := d.counts.set idx (d.counts.getD idx 0 + 1)
    total := d.total + value
    min := if d.count = 0 then value else if value < d.min then value else d.min
    max := if d.count = 0 then value
           else if value < d.min then d.max
           else if value > d.max then value else d.max
    count := d.count + 1 }

/-- `valueIndexToPiece`'s loop body: starting at
`startValueIdxInPiece`, walk the counts while
`valueIdx - startValueIdxInPiece >= counts[pieceIdx]`.  The `[]` case is
unreachable while the running total of counts exceeds `valueIdx`
(in Go it would index past the end of the slice). -/
def valueIndexToPieceAux : List ℕ → ℚ → ℚ → ℕ × ℚ
  | [], _, _ => (0, 0)
  | c :: rest, valueIdx, startValueIdxInPiece =>
    if (c : ℚ) ≤ valueIdx - startValueIdxInPiece then
      let r := valueIndexToPieceAux rest valueIdx (startValueIdxInPiece + (c : ℚ))
      (r.1 + 1, r.2)
    else
      (0, (valueIdx - startValueIdxInPiece) / (c : ℚ))

/-- `valueIndexToPiece` from the source: locate the bucket containing the
fractional value index, with the initial half-count shift `-0.5`. -/
def valueIndexToPiece (counts : List ℕ) (valueIdx : ℚ) : ℕ × ℚ :=
  valueIndexToPieceAux counts valueIdx (-(1/2))

/-- `interpolate` from the source. -/
def interpolate (min max frac : ℚ) : ℚ :=
  (1 - frac) * min + frac * max

/-- `distribution.calculateMedian` from the source.  For `count ≥ 1` the
Go expression `float64(d.count-1) / 2.0` (a `uint64` subtraction followed
by a float conversion) equals the `ℕ`-subtraction cast used here; the
function is never invoked with `count = 0`. -/
def distribution.calculateMedian (d : distribution) : ℚ :=
  if d.count = 1 then d.min
  else
    let medianIndex : ℚ := ((d.count - 1 : ℕ) : ℚ) / 2
    let r := valueIndexToPiece d.counts medianIndex
    let pieceLen := d.pieces.length
    if r.1 = 0 then
      interpolate d.min (Min.min (d.pieces.getD 0 default).End d.max) r.2
    else if r.1 = pieceLen - 1 then
      interpolate (Max.max (d.pieces.getD (pieceLen - 1) default).Start d.min) d.max r.2
    else
      interpolate (Max.max (d.pieces.getD r.1 default).Start d.min)
        (Min.min (d.pieces.getD r.1 default).End d.max) r.2

/-- `snapshot` from the source; `Breakdown` pairs each bucket descriptor
with its observed count (`breakdownPiece`). -/
structure snapshot where
  Min : ℚ
  Max : ℚ
  Average : ℚ
  Median : ℚ
  Count : ℕ
  Breakdown : List (bucketPiece × ℕ)
deriving Repr

/-- `distribution.Snapshot` from the source: copy the immutable bucket
descriptors, pair them with the counts, and report zeroes for an empty
distribution. -/
def distribution.Snapshot (d : distribution) : snapshot :=
  let bdn := d.pieces.zip d.counts
  if d.count = 0 then
    { Min := 0, Max := 0, Average := 0, Median := 0, Count := d.count, Breakdown := bdn }
  else
    { Min := d.min, Max := d.max, Average := d.total / (d.count : ℚ),
      Median := d.calculateMedian, Count := d.count, Breakdown := bdn }

/-- The middle and last pieces produced by `newBucketerFromStream`'s loop:
one closed-below/open-above piece per adjacent pair of cut points, then the
final `Last` piece (whose `End` keeps Go's zero value). -/
def middlePieces : ℚ → List ℚ → List bucketPiece
  | lower, [] => [{ Start := lower, End := 0, First := false, Last := true }]
  | lower, upper :: rest =>
      { Start := lower, End := upper, First := false, Last := false } :: middlePieces upper rest

/-- `newBucketerFromStream` from the source, with the stream of cut points
materialised as a list (the source panics on an empty stream; here the
empty list maps to an empty bucketer, which no constructor produces). -/
def newBucketerFromStream : List ℚ → List bucketPiece
  | [] => []
  | lower :: rest =>
      { Start := 0, End := lower, First := true, Last := false } :: middlePieces lower rest

/-- `NewArbitraryBucketer` from the source: the endpoints are used verbatim
as cut points (the caller guarantees they are ascending). -/
def NewArbitraryBucketer (endpoints : List ℚ) : List bucketPiece :=
  newBucketerFromStream endpoints

/-- `newDistribution` from the source: all-zero counts, one per piece. -/
def newDistribution (pieces : List bucketPiece) : distribution :=
  { pieces := pieces, counts := List.replicate pieces.length 0,
    total := 0, min := 0, max := 0, count := 0 }

/-- The cut points `e_1, …, e_k` of a piece list: the `End` fields of all
pieces but the last. -/
def cutPoints (pieces : List bucketPiece) : List ℚ :=
  pieces.dropLast.map bucketPiece.End

/-- Fold a list of observations into a distribution, left to right. -/
def addList (d : distribution) (xs : List ℚ) : distribution :=
  xs.foldl distribution.Add d

/-! ## C1: `Add` updates exactly one bucket -/

theorem getD_set_self {l : List ℕ} {i : ℕ} {v : ℕ} (h : i < l.length) :
    (l.set i v).getD i 0 = v := by
  rw [List.getD_eq_getElem?_getD, List.getElem?_set_self h]
  rfl

theorem getD_set_ne {l : List ℕ} {i j : ℕ} {v : ℕ} (h : i ≠ j) :
    (l.set i v).getD j 0 = l.getD j 0 := by
  rw [List.getD_eq_getElem?_getD, List.getElem?_set_ne h, ← List.getD_eq_getElem?_getD]

theorem findDistributionIndex_le (pieces : List bucketPiece) (x : ℚ) :
    findDistributionIndex pieces x ≤ pieces.length - 1 := by
  have h := @List.findIdx_le_length bucketPiece (fun p => decide (x < p.End)) pieces.dropLast
  simpa [findDistributionIndex, List.length_dropLast] using h

theorem findDistributionIndex_lt (pieces : List bucketPiece) (x : ℚ)
    (hne : pieces ≠ []) : findDistributionIndex pieces x < pieces.length := by
  have h := findDistributionIndex_le pieces x
  have hpos : 0 < pieces.length := List.length_pos.mpr hne
  omega

/-- The found index is below any cut point at or above it. -/
theorem findDistributionIndex_upper {pieces : List bucketPiece} {x : ℚ}
    (h : findDistributionIndex pieces x < (cutPoints pieces).length) :
    x < (cutPoints pieces).getD (findDistributionIndex pieces x) 0 := by
  unfold findDistributionIndex at *
  have hlen : (cutPoints pieces).length = pieces.dropLast.length := by
    simp [cutPoints]
  have hlt : List.findIdx (fun p => decide (x < p.End)) pieces.dropLast <
      pieces.dropLast.length := by omega
  have hx : x < (pieces.dropLast.get
      ⟨List.findIdx (fun p => decide (x < p.End)) pieces.dropLast, hlt⟩).End := by
    simpa using @List.findIdx_getElem bucketPiece
      (fun p => decide (x < p.End)) pieces.dropLast hlt
  rw [cutPoints, List.getD_eq_getElem?_getD, List.getElem?_map]
  rw [List.getElem?_eq_getElem hlt]
  simpa using hx

/-- Every cut point strictly before the found index is `≤ x`. -/
theorem findDistributionIndex_lower {pieces : List bucketPiece} {x : ℚ} {j : ℕ}
    (h : j < findDistributionIndex pieces x) :
    (cutPoints pieces).getD j 0 ≤ x := by
  unfold findDistributionIndex at h
  have hlt : j < pieces.dropLast.length :=
    lt_of_lt_of_le h (List.findIdx_le_length _)
  have hx : ¬ x < (pieces.dropLast.get ⟨j, hlt⟩).End := by
    simpa using List.not_of_lt_findIdx h
  rw [cutPoints, List.getD_eq_getElem?_getD, List.getElem?_map,
    List.getElem?_eq_getElem hlt]
  simpa using le_of_not_lt hx

/-- C1: adding `x` increments the count of exactly the bucket `b` selected
by `findDistributionIndex` — the bucket with `e_b ≤ x < e_{b+1}`, the first
bucket when `x < e_1` and the last when `x ≥ e_k` — adds `x` to the running
sum, increments the total count by one, and sets `min = max = x` on the
first observation, otherwise updates `min` to `min(min, x)` and `max` to
`max(max, x)`; no other bucket count changes. -/
theorem C1_add_updates_exactly_one_bucket (d : distribution) (x : ℚ)
    (hsort : (cutPoints d.pieces).Sorted (· < ·))
    (hlen : d.counts.length = d.pieces.length)
    (hne : d.pieces ≠ [])
    (hminmax : d.count ≠ 0 → d.min ≤ d.max) :
    (findDistributionIndex d.pieces x < (cutPoints d.pieces).length →
        x < (cutPoints d.pieces).getD (findDistributionIndex d.pieces x) 0) ∧
    (0 < findDistributionIndex d.pieces x →
        (cutPoints d.pieces).getD (findDistributionIndex d.pieces x - 1) 0 ≤ x) ∧
    findDistributionIndex d.pieces x < d.pieces.length ∧
    (d.Add x).counts.getD (findDistributionIndex d.pieces x) 0 =
        d.counts.getD (findDistributionIndex d.pieces x) 0 + 1 ∧
    (∀ j, j ≠ findDistributionIndex d.pieces x →
        (d.Add x).counts.getD j 0 = d.counts.getD j 0) ∧
    (d.Add x).total = d.total + x ∧
    (d.Add x).count = d.count + 1 ∧
    (d.Add x).min = (if d.count = 0 then x else Min.min d.min x) ∧
    (d.Add x).max = (if d.count = 0 then x else Max.max d.max x) := by
  have hidx : findDistributionIndex d.pieces x < d.pieces.length :=
    findDistributionIndex_lt d.pieces x hne
  refine ⟨fun h => findDistributionIndex_upper h, ?_, hidx, ?_, ?_, ?_, ?_, ?_, ?_⟩
  · intro hpos
    exact findDistributionIndex_lower (by omega)
  · exact getD_set_self (by omega)
  · intro j hj
    exact getD_set_ne (Ne.symm hj)
  · rfl
  · rfl
  · show (if d.count = 0 then x else if x < d.min then x else d.min) = _
    by_cases h0 : d.count = 0
    · simp [h0]
    · simp only [h0, if_false]
      by_cases hlt : x < d.min
      · rw [if_pos hlt, min_eq_right hlt.le]
      · rw [if_neg hlt, min_eq_left (le_of_not_lt hlt)]
  · show (if d.count = 0 then x
        else if x < d.min then d.max else if x > d.max then x else d.max) = _
    by_cases h0 : d.count = 0
    · simp [h0]
    · simp only [h0, if_false]
      by_cases hlt : x < d.min
      · rw [if_pos hlt, max_eq_left (le_trans hlt.le (hminmax h0))]
      · rw [if_neg hlt]
        by_cases hgt : x > d.max
        · rw [if_pos hgt, max_eq_right hgt.le]
        · rw [if_neg hgt, max_eq_left (le_of_not_lt hgt)]

theorem C1_witness :
    ((newDistribution (NewArbitraryBucketer [10])).Add 5).counts.getD
        (findDistributionIndex (newDistribution (NewArbitraryBucketer [10])).pieces 5) 0 =
      (newDistribution (NewArbitraryBucketer [10])).counts.getD
        (findDistributionIndex (newDistribution (NewArbitraryBucketer [10])).pieces 5) 0 + 1 :=
  (C1_add_updates_exactly_one_bucket (newDistribution (NewArbitraryBucketer [10])) 5
    (by simp [cutPoints, NewArbitraryBucketer, newBucketerFromStream, middlePieces,
      newDistribution])
    rfl
    (by simp [NewArbitraryBucketer, newBucketerFromStream, middlePieces, newDistribution])
    (fun h => absurd rfl h)).2.2.2.1

/-! ## C4: concrete median scenarios over the arbitrary bucketer `[1000]` -/

/-- C4: over the arbitrary bucketer with the single cut point `1000`,
adding exactly `200, 300` yields snapshot median `250`, and (on a fresh
distribution over the same bucketer) adding exactly `3000, 3000, 7000`
yields snapshot median `5000`. -/
theorem C4_median_all_low_all_high :
    (addList (newDistribution (NewArbitraryBucketer [1000])) [200, 300]).Snapshot.Median
        = 250 ∧
    (addList (newDistribution (NewArbitraryBucketer [1000]))
        [3000, 3000, 7000]).Snapshot.Median = 5000 := by
  constructor <;>
    norm_num [addList, newDistribution, NewArbitraryBucketer, newBucketerFromStream,
      middlePieces, distribution.Add, distribution.Snapshot, distribution.calculateMedian,
      findDistributionIndex, valueIndexToPiece, valueIndexToPieceAux, interpolate,
      List.findIdx_cons, List.getD, List.replicate]

/-! ## Reachability invariant for distributions -/

theorem Add_pieces (d : distribution) (x : ℚ) : (d.Add x).pieces = d.pieces := rfl

theorem Add_counts (d : distribution) (x : ℚ) :
    (d.Add x).counts = d.counts.set (findDistributionIndex d.pieces x)
      (d.counts.getD (findDistributionIndex d.pieces x) 0 + 1) := rfl

theorem Add_total (d : distribution) (x : ℚ) : (d.Add x).total = d.total + x := rfl

theorem Add_count (d : distribution) (x : ℚ) : (d.Add x).count = d.count + 1 := rfl

theorem Add_min (d : distribution) (x : ℚ) :
    (d.Add x).min = if d.count = 0 then x else if x < d.min then x else d.min := rfl

theorem Add_max (d : distribution) (x : ℚ) :
    (d.Add x).max = if d.count = 0 then x
      else if x < d.min then d.max else if x > d.max then x else d.max := rfl

theorem sum_set_succ : ∀ (l : List ℕ) (i : ℕ), i < l.length →
    (l.set i (l.getD i 0 + 1)).sum = l.sum + 1
  | [], i, h => absurd h (by simp)
  | a :: l, 0, _ => by simp [List.getD]; omega
  | a :: l, i + 1, h => by
      have ih := sum_set_succ l i (by simpa using h)
      have h1 : (a :: l).getD (i + 1) 0 = l.getD i 0 := rfl
      have h2 : (a :: l).set (i + 1) (l.getD i 0 + 1) = a :: l.set i (l.getD i 0 + 1) := rfl
      rw [h1, h2, List.sum_cons, List.sum_cons, ih]
      omega

theorem getD_replicate_zero (n j : ℕ) : (List.replicate n (0 : ℕ)).getD j 0 = 0 := by
  rw [List.getD_eq_getElem?_getD, List.getElem?_replicate]
  split <;> rfl

theorem sum_eq_zero_getD {l : List ℕ} (h : l.sum = 0) (j : ℕ) : l.getD j 0 = 0 := by
  induction l generalizing j with
  | nil => simp [List.getD]
  | cons a t ih =>
      simp only [List.sum_cons] at h
      cases j with
      | zero => simp [List.getD]; omega
      | succ j => simpa [List.getD] using ih (by omega) j

/-- Invariant tying a distribution to the bucketer it was created over and
the multiset of observations folded into it. -/
structure DistOk (pieces0 : List bucketPiece) (obs : List ℚ) (d : distribution) : Prop where
  pieces_eq : d.pieces = pieces0
  len : d.counts.length = d.pieces.length
  sum_eq : d.counts.sum = d.count
  cnt : d.count = obs.length
  minmem : obs ≠ [] → d.min ∈ obs
  maxmem : obs ≠ [] → d.max ∈ obs
  minmax : obs ≠ [] → d.min ≤ d.max
  bLow : ∀ b, 0 < b → b < d.counts.length → 0 < d.counts.getD b 0 →
      (cutPoints d.pieces).getD (b - 1) 0 ≤ d.max
  bHigh : ∀ b, b < (cutPoints d.pieces).length → 0 < d.counts.getD b 0 →
      d.min < (cutPoints d.pieces).getD b 0

theorem DistOk_new (pieces0 : List bucketPiece) :
    DistOk pieces0 [] (newDistribution pieces0) where
  pieces_eq := rfl
  len := by simp [newDistribution]
  sum_eq := by simp [newDistribution]
  cnt := rfl
  minmem := fun h => absurd rfl h
  maxmem := fun h => absurd rfl h
  minmax := fun h => absurd rfl h
  bLow := by
    intro b _ _ hpos
    have h0 : (newDistribution pieces0).counts.getD b 0 = 0 := getD_replicate_zero _ _
    omega
  bHigh := by
    intro b _ hpos
    have h0 : (newDistribution pieces0).counts.getD b 0 = 0 := getD_replicate_zero _ _
    omega

theorem DistOk.add {pieces0 : List bucketPiece} {obs : List ℚ} {d : distribution}
    (h : DistOk pieces0 obs d) (x : ℚ) (hne : pieces0 ≠ []) :
    DistOk pieces0 (obs ++ [x]) (d.Add x) := by
  have hpne : d.pieces ≠ [] := by rw [h.pieces_eq]; exact hne
  have hidx : findDistributionIndex d.pieces x < d.counts.length := by
    rw [h.len]; exact findDistributionIndex_lt d.pieces x hpne
  have hobs : obs = [] ↔ d.count = 0 := by
    rw [h.cnt, List.length_eq_zero]
  have hminx : (d.Add x).min ≤ x := by
    rw [Add_min]
    split
    · exact le_refl x
    · split
      · exact le_refl x
      · exact le_of_not_lt (by assumption)
  have hmaxx : x ≤ (d.Add x).max := by
    rw [Add_max]
    split
    · exact le_refl x
    · rename_i hc0
      split
      · rename_i hlt
        exact le_trans hlt.le (h.minmax (fun he => hc0 (hobs.mp he)))
      · split
        · exact le_refl x
        · exact le_of_not_lt (by assumption)
  have hminmono : d.count ≠ 0 → (d.Add x).min ≤ d.min := by
    intro hc0
    rw [Add_min, if_neg hc0]
    split
    · exact le_of_lt (by assumption)
    · exact le_refl _
  have hmaxmono : d.count ≠ 0 → d.max ≤ (d.Add x).max := by
    intro hc0
    rw [Add_max, if_neg hc0]
    split
    · exact le_refl _
    · split
      · exact le_of_lt (by assumption)
      · exact le_refl _
  have hminmax' : (d.Add x).min ≤ (d.Add x).max := by
    rw [Add_min, Add_max]
    by_cases hc0 : d.count = 0
    · simp [hc0]
    · have hmm := h.minmax (fun he => hc0 (hobs.mp he))
      simp only [hc0, if_false]
      by_cases h1 : x < d.min
      · simp only [if_pos h1]
        exact le_trans h1.le hmm
      · simp only [if_neg h1]
        by_cases h2 : x > d.max
        · simp only [if_pos h2]
          exact le_of_not_lt h1
        · simp only [if_neg h2]
          exact hmm
  refine ⟨by rw [Add_pieces, h.pieces_eq], ?_, ?_, ?_, ?_, ?_, ?_, ?_, ?_⟩
  · rw [Add_counts, Add_pieces, List.length_set, h.len]
  · rw [Add_counts, Add_count, sum_set_succ _ _ hidx, h.sum_eq]
  · rw [Add_count, h.cnt]; simp
  · intro _
    rw [Add_min]
    by_cases hc0 : d.count = 0
    · simp [hc0]
    · simp only [hc0, if_false]
      split
      · simp
      · exact List.mem_append_left _ (h.minmem (fun he => hc0 (hobs.mp he)))
  · intro _
    rw [Add_max]
    by_cases hc0 : d.count = 0
    · simp [hc0]
    · simp only [hc0, if_false]
      split
      · exact List.mem_append_left _ (h.maxmem (fun he => hc0 (hobs.mp he)))
      · split
        · simp
        · exact List.mem_append_left _ (h.maxmem (fun he => hc0 (hobs.mp he)))
  · intro _
    exact hminmax'
  · intro b hb hblen hbpos
    rw [Add_pieces]
    rw [Add_counts, List.length_set] at hblen
    by_cases hbeq : b = findDistributionIndex d.pieces x
    · subst hbeq
      refine le_trans ?_ hmaxx
      exact findDistributionIndex_lower (by omega)
    · rw [Add_counts, getD_set_ne (Ne.symm hbeq)] at hbpos
      have hc0 : d.count ≠ 0 := by
        intro hc
        have := sum_eq_zero_getD (h.sum_eq.trans hc) b
        omega
      exact le_trans (h.bLow b hb hblen hbpos) (hmaxmono hc0)
  · intro b hblen hbpos
    rw [Add_pieces]
    rw [Add_pieces] at hblen
    by_cases hbeq : b = findDistributionIndex d.pieces x
    · subst hbeq
      exact lt_of_le_of_lt hminx (findDistributionIndex_upper hblen)
    · rw [Add_counts, getD_set_ne (Ne.symm hbeq)] at hbpos
      have hc0 : d.count ≠ 0 := by
        intro hc
        have := sum_eq_zero_getD (h.sum_eq.trans hc) b
        omega
      exact lt_of_le_of_lt (hminmono hc0) (h.bHigh b hblen hbpos)

theorem DistOk_addList {pieces0 : List bucketPiece} (hne : pieces0 ≠ []) :
    ∀ (xs obs : List ℚ) (d : distribution), DistOk pieces0 obs d →
      DistOk pieces0 (obs ++ xs) (addList d xs)
  | [], obs, d, h => by simpa [addList] using h
  | x :: xs, obs, d, h => by
      have ih := DistOk_addList hne xs (obs ++ [x]) (d.Add x) (h.add x hne)
      simpa [addList] using ih

/-! ## C2: snapshot counting invariants -/

theorem Snapshot_Count (d : distribution) : d.Snapshot.Count = d.count := by
  unfold distribution.Snapshot
  split <;> rfl

theorem Snapshot_Breakdown (d : distribution) :
    d.Snapshot.Breakdown = d.pieces.zip d.counts := by
  unfold distribution.Snapshot
  split <;> rfl

theorem Snapshot_Min (d : distribution) (h : d.count ≠ 0) : d.Snapshot.Min = d.min := by
  unfold distribution.Snapshot
  rw [if_neg h]

theorem Snapshot_Max (d : distribution) (h : d.count ≠ 0) : d.Snapshot.Max = d.max := by
  unfold distribution.Snapshot
  rw [if_neg h]

theorem Snapshot_Median (d : distribution) (h : d.count ≠ 0) :
    d.Snapshot.Median = d.calculateMedian := by
  unfold distribution.Snapshot
  rw [if_neg h]

/-- C2: for every non-empty bucketer and every finite sequence of `Add`
calls on a fresh distribution, the snapshot's count equals the number of
`Add` calls, the per-bucket counts in the breakdown sum to that count, and
when at least one value was observed the snapshot's min is at most its max
and both were passed to some `Add` call. -/
theorem C2_snapshot_counting (pieces0 : List bucketPiece) (xs : List ℚ)
    (hne : pieces0 ≠ []) :
    (addList (newDistribution pieces0) xs).Snapshot.Count = xs.length ∧
    ((addList (newDistribution pieces0) xs).Snapshot.Breakdown.map Prod.snd).sum =
      (addList (newDistribution pieces0) xs).Snapshot.Count ∧
    (xs ≠ [] →
      (addList (newDistribution pieces0) xs).Snapshot.Min ≤
        (addList (newDistribution pieces0) xs).Snapshot.Max ∧
      (addList (newDistribution pieces0) xs).Snapshot.Min ∈ xs ∧
      (addList (newDistribution pieces0) xs).Snapshot.Max ∈ xs) := by
  have hok : DistOk pieces0 xs (addList (newDistribution pieces0) xs) := by
    have := DistOk_addList hne xs [] (newDistribution pieces0) (DistOk_new pieces0)
    simpa using this
  set d := addList (newDistribution pieces0) xs with hd
  have hcount : d.Snapshot.Count = xs.length := by rw [Snapshot_Count, hok.cnt]
  refine ⟨hcount, ?_, ?_⟩
  · rw [Snapshot_Breakdown, List.map_snd_zip _ _ (le_of_eq hok.len), hok.sum_eq,
      Snapshot_Count]
  · intro hxs
    have hc0 : d.count ≠ 0 := by
      rw [hok.cnt]
      simpa using hxs
    rw [Snapshot_Min d hc0, Snapshot_Max d hc0]
    exact ⟨hok.minmax hxs, hok.minmem hxs, hok.maxmem hxs⟩

theorem C2_witness :
    (addList (newDistribution (NewArbitraryBucketer [1000])) [200, 300]).Snapshot.Count = 2 ∧
    ((addList (newDistribution (NewArbitraryBucketer [1000]))
        [200, 300]).Snapshot.Breakdown.map Prod.snd).sum =
      (addList (newDistribution (NewArbitraryBucketer [1000])) [200, 300]).Snapshot.Count ∧
    ([200, 300] ≠ ([] : List ℚ) →
      (addList (newDistribution (NewArbitraryBucketer [1000])) [200, 300]).Snapshot.Min ≤
        (addList (newDistribution (NewArbitraryBucketer [1000])) [200, 300]).Snapshot.Max ∧
      (addList (newDistribution (NewArbitraryBucketer [1000])) [200, 300]).Snapshot.Min ∈
        ([200, 300] : List ℚ) ∧
      (addList (newDistribution (NewArbitraryBucketer [1000])) [200, 300]).Snapshot.Max ∈
        ([200, 300] : List ℚ)) :=
  C2_snapshot_counting (NewArbitraryBucketer [1000]) [200, 300]
    (by simp [NewArbitraryBucketer, newBucketerFromStream, middlePieces])

/-! ## C3: the median lies between min and max -/

theorem cutPoints_length (pieces : List bucketPiece) :
    (cutPoints pieces).length = pieces.length - 1 := by
  simp [cutPoints]

theorem cutPoints_getD {pieces : List bucketPiece} {i : ℕ} (h : i < pieces.length - 1) :
    (cutPoints pieces).getD i 0 = (pieces.getD i default).End := by
  have hi : i < pieces.length := by omega
  rw [cutPoints, List.getD_eq_getElem?_getD, List.getElem?_map, List.getElem?_dropLast,
    if_pos h, List.getElem?_eq_getElem hi, List.getD_eq_getElem?_getD,
    List.getElem?_eq_getElem hi]
  rfl

theorem sorted_getD_lt {E : List ℚ} (hsort : E.Sorted (· < ·)) {i j : ℕ}
    (hij : i < j) (hj : j < E.length) : E.getD i 0 < E.getD j 0 := by
  have hi : i < E.length := by omega
  rw [List.getD_eq_getElem?_getD, List.getD_eq_getElem?_getD,
    List.getElem?_eq_getElem hi, List.getElem?_eq_getElem hj]
  exact List.pairwise_iff_getElem.mp hsort i j hi hj hij

theorem valueIndexToPieceAux_spec : ∀ (l : List ℕ) (v s : ℚ), s ≤ v →
    v - s < (l.sum : ℚ) →
    (valueIndexToPieceAux l v s).1 < l.length ∧
    0 < l.getD (valueIndexToPieceAux l v s).1 0 ∧
    0 ≤ (valueIndexToPieceAux l v s).2 ∧ (valueIndexToPieceAux l v s).2 < 1
  | [], v, s, hs, hsum => by
      exfalso
      simp only [List.sum_nil, Nat.cast_zero] at hsum
      linarith
  | c :: rest, v, s, hs, hsum => by
      rw [valueIndexToPieceAux]
      by_cases hc : (c : ℚ) ≤ v - s
      · have hs' : s + (c : ℚ) ≤ v := by linarith
        have hsum' : v - (s + (c : ℚ)) < (rest.sum : ℚ) := by
          have hcs : (((c :: rest).sum : ℕ) : ℚ) = (c : ℚ) + (rest.sum : ℚ) := by
            rw [List.sum_cons]
            push_cast
            ring
          rw [hcs] at hsum
          linarith
        have ih := valueIndexToPieceAux_spec rest v (s + (c : ℚ)) hs' hsum'
        simp only [if_pos hc]
        refine ⟨by simpa using ih.1, ?_, ih.2.2⟩
        simpa [List.getD] using ih.2.1
      · have hvc : v - s < (c : ℚ) := lt_of_not_le hc
        have hc0 : (0 : ℚ) < (c : ℚ) := lt_of_le_of_lt (by linarith) hvc
        simp only [if_neg hc]
        refine ⟨by simp, ?_, ?_, ?_⟩
        · simpa [List.getD] using Nat.cast_pos.mp hc0
        · exact div_nonneg (by linarith) hc0.le
        · rw [div_lt_one hc0]
          exact hvc

theorem interpolate_bounds {lo hi f : ℚ} (h0 : 0 ≤ f) (h1 : f ≤ 1) (hlh : lo ≤ hi) :
    lo ≤ interpolate lo hi f ∧ interpolate lo hi f ≤ hi := by
  unfold interpolate
  constructor <;> nlinarith

theorem calculateMedian_bounds {pieces0 : List bucketPiece} {obs : List ℚ}
    {d : distribution} (h : DistOk pieces0 obs d)
    (hsort : (cutPoints pieces0).Sorted (· < ·))
    (hchain : ∀ i, i + 1 < pieces0.length →
        (pieces0.getD (i + 1) default).Start = (pieces0.getD i default).End)
    (hlen2 : 2 ≤ pieces0.length) (hobs : obs ≠ []) :
    d.min ≤ d.calculateMedian ∧ d.calculateMedian ≤ d.max := by
  obtain ⟨hpe, hlen, hsum, hcnt, _, _, hminmax, hbLow, hbHigh⟩ := h
  subst hpe
  have hc1 : 1 ≤ d.count := by
    rw [hcnt]
    have := List.length_pos.mpr hobs
    omega
  unfold distribution.calculateMedian
  by_cases hone : d.count = 1
  · rw [if_pos hone]
    exact ⟨le_refl _, hminmax hobs⟩
  rw [if_neg hone]
  have hc2 : 2 ≤ d.count := by omega
  set v : ℚ := ((d.count - 1 : ℕ) : ℚ) / 2 with hv
  have hvcast : ((d.count - 1 : ℕ) : ℚ) = (d.count : ℚ) - 1 := by
    push_cast [Nat.cast_sub hc1]
    ring
  have hcQ : (2 : ℚ) ≤ (d.count : ℚ) := by exact_mod_cast hc2
  have harg1 : -(1/2 : ℚ) ≤ v := by
    rw [hv, hvcast]
    linarith
  have harg2 : v - (-(1/2)) < (d.counts.sum : ℚ) := by
    rw [hsum, hv, hvcast]
    linarith
  have hspec := valueIndexToPieceAux_spec d.counts v (-(1/2)) harg1 harg2
  rw [show valueIndexToPieceAux d.counts v (-(1/2)) = valueIndexToPiece d.counts v from rfl]
    at hspec
  obtain ⟨hblt, hbpos, hf0, hf1⟩ := hspec
  set b := (valueIndexToPiece d.counts v).1 with hb
  set f := (valueIndexToPiece d.counts v).2 with hf
  have hblen : b < d.pieces.length := by rw [← hlen]; exact hblt
  have hElen : (cutPoints d.pieces).length = d.pieces.length - 1 :=
    cutPoints_length d.pieces
  by_cases hb0 : b = 0
  · rw [if_pos hb0]
    have hhigh : d.min < (cutPoints d.pieces).getD 0 0 := by
      apply hbHigh 0
      · omega
      · rw [hb0] at hbpos
        exact hbpos
    rw [@cutPoints_getD d.pieces 0 (by omega)] at hhigh
    have hlh : d.min ≤ Min.min (d.pieces.getD 0 default).End d.max :=
      le_min hhigh.le (hminmax hobs)
    have hib := interpolate_bounds hf0 hf1.le hlh
    exact ⟨hib.1, le_trans hib.2 (min_le_right _ _)⟩
  rw [if_neg hb0]
  have hbpos' : 0 < b := Nat.pos_of_ne_zero hb0
  have hlow : (cutPoints d.pieces).getD (b - 1) 0 ≤ d.max :=
    hbLow b hbpos' hblt hbpos
  by_cases hbl : b = d.pieces.length - 1
  · rw [if_pos hbl]
    have hch := hchain (b - 1) (by omega)
    rw [show b - 1 + 1 = b from by omega] at hch
    have hstart : (d.pieces.getD (d.pieces.length - 1) default).Start =
        (cutPoints d.pieces).getD (b - 1) 0 := by
      rw [@cutPoints_getD d.pieces (b - 1) (by omega), ← hbl]
      exact hch
    rw [hstart]
    have hlh : Max.max ((cutPoints d.pieces).getD (b - 1) 0) d.min ≤ d.max :=
      max_le hlow (hminmax hobs)
    have hib := interpolate_bounds hf0 hf1.le hlh
    exact ⟨le_trans (le_max_right _ _) hib.1, hib.2⟩
  · rw [if_neg hbl]
    have hbE : b < (cutPoints d.pieces).length := by omega
    have hhigh : d.min < (cutPoints d.pieces).getD b 0 := hbHigh b hbE hbpos
    have hEE : (cutPoints d.pieces).getD (b - 1) 0 < (cutPoints d.pieces).getD b 0 :=
      sorted_getD_lt hsort (by omega) hbE
    have hch := hchain (b - 1) (by omega)
    rw [show b - 1 + 1 = b from by omega] at hch
    have hstart : (d.pieces.getD b default).Start = (cutPoints d.pieces).getD (b - 1) 0 := by
      rw [@cutPoints_getD d.pieces (b - 1) (by omega)]
      exact hch
    have hend : (d.pieces.getD b default).End = (cutPoints d.pieces).getD b 0 :=
      (@cutPoints_getD d.pieces b (by omega)).symm
    rw [hstart, hend]
    have hlh : Max.max ((cutPoints d.pieces).getD (b - 1) 0) d.min ≤
        Min.min ((cutPoints d.pieces).getD b 0) d.max :=
      max_le (le_min hEE.le hlow) (le_min hhigh.le (hminmax hobs))
    have hib := interpolate_bounds hf0 hf1.le hlh
    exact ⟨le_trans (le_max_right _ _) hib.1, le_trans hib.2 (min_le_right _ _)⟩

/-- C3: for every distribution over a bucketer (ascending cut points,
chained pieces, at least two buckets) with at least one observation, the
median reported by `Snapshot` satisfies `min ≤ median ≤ max` — in
particular also when every sample falls into the unbounded first or last
bucket, thanks to the clamping of the interpolation endpoints against the
observed min and max. -/
theorem C3_median_between_min_and_max (pieces0 : List bucketPiece) (xs : List ℚ)
    (hsort : (cutPoints pieces0).Sorted (· < ·))
    (hchain : ∀ i, i + 1 < pieces0.length →
        (pieces0.getD (i + 1) default).Start = (pieces0.getD i default).End)
    (hlen2 : 2 ≤ pieces0.length) (hxs : xs ≠ []) :
    (addList (newDistribution pieces0) xs).Snapshot.Min ≤
      (addList (newDistribution pieces0) xs).Snapshot.Median ∧
    (addList (newDistribution pieces0) xs).Snapshot.Median ≤
      (addList (newDistribution pieces0) xs).Snapshot.Max := by
  have hne : pieces0 ≠ [] := by
    intro h
    rw [h] at hlen2
    simp at hlen2
  have hok : DistOk pieces0 xs (addList (newDistribution pieces0) xs) := by
    have := DistOk_addList hne xs [] _ (DistOk_new pieces0)
    simpa using this
  set d := addList (newDistribution pieces0) xs with hd
  have hc0 : d.count ≠ 0 := by
    rw [hok.cnt]
    simpa using hxs
  have hb := calculateMedian_bounds hok hsort hchain hlen2 hxs
  rw [Snapshot_Min d hc0, Snapshot_Max d hc0, Snapshot_Median d hc0]
  exact hb

theorem C3_witness :
    (addList (newDistribution (NewArbitraryBucketer [1000]))
        [3000, 3000, 7000]).Snapshot.Min ≤
      (addList (newDistribution (NewArbitraryBucketer [1000]))
        [3000, 3000, 7000]).Snapshot.Median ∧
    (addList (newDistribution (NewArbitraryBucketer [1000]))
        [3000, 3000, 7000]).Snapshot.Median ≤
      (addList (newDistribution (NewArbitraryBucketer [1000]))
        [3000, 3000, 7000]).Snapshot.Max :=
  C3_median_between_min_and_max (NewArbitraryBucketer [1000]) [3000, 3000, 7000]
    (by simp [cutPoints, NewArbitraryBucketer, newBucketerFromStream, middlePieces])
    (by
      intro i hi
      have hlen : (NewArbitraryBucketer [1000]).length = 2 := rfl
      rw [hlen] at hi
      have h0 : i = 0 := by omega
      subst h0
      rfl)
    (by norm_num [NewArbitraryBucketer, newBucketerFromStream, middlePieces])
    (by simp)

/-! ## Path parser (`pathSpec`) -/

/-- Go's `strings.TrimSpace` on a character sequence: drop leading and
trailing whitespace. -/
def trimSpaceList (s : List Char) : List Char :=
  ((s.dropWhile Char.isWhitespace).reverse.dropWhile Char.isWhitespace).reverse

/-- `newPathSpec` from the source: split the raw path on `'/'`
(`strings.Split` keeps empty parts; `List.splitOn` does the same) and
filter out the parts whose whitespace-trimmed form is empty. -/
def newPathSpec (path : List Char) : List (List Char) :=
  (path.splitOn '/').filter (fun part => !(trimSpaceList part).isEmpty)

/-- `listEntry.absPath` with the node identified by the path of segment
names from the root: `pathFrom(root)` collects exactly those names by
walking the parent links and reversing, and `absPath` joins them with
`"/"` behind a leading `"/"`. -/
def absPathOf (segs : List (List Char)) : List Char :=
  '/' :: List.intercalate ['/'] segs

/-! ## Namespace tree (`directory`, `listEntry`, `metric`) -/

/-- `metric` from the source; the `Unit` and `Value` payloads are carried
opaquely (the namespace never inspects them), as identifiers. -/
structure metricD where
  Description : List Char
  unitId : ℕ
  valueId : ℕ
deriving Repr, DecidableEq

/-- A namespace node: the two roles a `listEntry` can have.  In the source
a `listEntry` has exactly one of `Directory`/`Metric` non-nil (invariant
N1); here that is enforced by construction.  The name lives in the parent's
contents list, and the parent pointer is rendered by identifying a node
with its path from the root. -/
inductive entry where
  | dir (contents : List (List Char × entry))
  | metr (m : metricD)
deriving Repr

/-- The contents of a directory: the model of `map[string]*listEntry`.
A Go map has no observable order (`List()` sorts on demand) and its keys
are unique, so an association list is observationally faithful. -/
abbrev contentsT := List (List Char × entry)

/-- Map lookup `d.contents[name]`. -/
def lookupE : contentsT → List Char → Option entry
  | [], _ => none
  | (n, e) :: rest, s => if n = s then some e else lookupE rest s

/-- Map update through an existing key: the functional form of mutating the
`*listEntry` a lookup returned. -/
def updateE : contentsT → List Char → entry → contentsT
  | [], _, _ => []
  | (n, e) :: rest, s, e' => if n = s then (n, e') :: rest else (n, e) :: updateE rest s e'

/-- Map insertion of a fresh key (`d.contents[name] = newListEntry`). -/
def insertE (cs : contentsT) (name : List Char) (e : entry) : contentsT :=
  cs ++ [(name, e)]

/-- `directory.getDirectory` from the source: walk the parsed path; fail on
a missing child or on a child that is not a directory. -/
def getDirectory : contentsT → List (List Char) → Option contentsT
  | cs, [] => some cs
  | cs, part :: rest =>
      match lookupE cs part with
      | some (entry.dir sub) => getDirectory sub rest
      | _ => none

/-- `directory.getDirectoryOrMetric` from the source: the empty path names
the directory itself; otherwise walk to `path.Dir()` and look up
`path.Base()`, returning the entry's directory and metric sides. -/
def getDirectoryOrMetric (cs : contentsT) (path : List (List Char)) :
    Option contentsT × Option metricD :=
  if path.isEmpty then (some cs, none)
  else
    match getDirectory cs path.dropLast with
    | none => (none, none)
    | some sub =>
        match lookupE sub (path.getLastD []) with
        | none => (none, none)
        | some (entry.dir s2) => (some s2, none)
        | some (entry.metr m) => (none, some m)

/-- `directory.GetMetric` from the source (path already parsed separately
by the string-level wrapper below). -/
def getMetric (cs : contentsT) (path : List (List Char)) : Option metricD :=
  (getDirectoryOrMetric cs path).2

/-- `directory.GetMetric(relativePath)` from the source. -/
def GetMetric (cs : contentsT) (relativePath : List Char) : Option metricD :=
  getMetric cs (newPathSpec relativePath)

/-- `directory.GetDirectory(relativePath)` from the source. -/
def GetDirectory (cs : contentsT) (relativePath : List Char) : Option contentsT :=
  getDirectory cs (newPathSpec relativePath)

/-- `directory.GetDirectoryOrMetric(relativePath)` from the source. -/
def GetDirectoryOrMetric (cs : contentsT) (relativePath : List Char) :
    Option contentsT × Option metricD :=
  getDirectoryOrMetric cs (newPathSpec relativePath)

/-- `directory.createDirIfNeeded` from the source: missing name creates a
fresh empty directory (returning the updated contents and the fresh child's
contents); an existing directory is returned as is; an existing metric is
`ErrPathInUse` (`none`). -/
def createDirIfNeeded (cs : contentsT) (name : List Char) :
    Option (contentsT × contentsT) :=
  match lookupE cs name with
  | none => some (insertE cs name (entry.dir []), [])
  | some (entry.dir sub) => some (cs, sub)
  | some (entry.metr _) => none

/-- `directory.registerDirectory` from the source: walk the path through
`createDirIfNeeded`, threading the mutation of each child back into its
parent (`updateE` is the write through the child pointer).  Returns the
updated tree and `true`, or the tree as mutated so far and `false` on
`ErrPathInUse`. -/
def registerDirectory : contentsT → List (List Char) → contentsT × Bool
  | cs, [] => (cs, true)
  | cs, part :: rest =>
      match createDirIfNeeded cs part with
      | none => (cs, false)
      | some (cs1, sub) =>
          let r := registerDirectory sub rest
          (updateE cs1 part (entry.dir r.1), r.2)

/-- `directory.storeMetric` from the source: fail if the name is bound to
anything, else bind it to the metric. -/
def storeMetric (cs : contentsT) (name : List Char) (m : metricD) :
    contentsT × Bool :=
  match lookupE cs name with
  | some _ => (cs, false)
  | none => (insertE cs name (entry.metr m), true)

/-- Apply an update to the contents of the directory at `path`: the
functional rendering of mutating, in place, the subdirectory that
`registerDirectory` returned a pointer to (the pointed-to node is the node
at that path).  The fallthrough case is unreachable when the path names an
existing directory. -/
def modifyAt : contentsT → List (List Char) → (contentsT → contentsT × Bool) →
    contentsT × Bool
  | cs, [], f => f cs
  | cs, part :: rest, f =>
      match lookupE cs part with
      | some (entry.dir sub) =>
          let r := modifyAt sub rest f
          (updateE cs part (entry.dir r.1), r.2)
      | _ => (cs, false)

/-- `directory.registerMetric` from the source: the empty path is
`ErrPathInUse`; otherwise ensure `path.Dir()` is a directory (creating
missing ancestors) and store the metric at `path.Base()` inside it. -/
def registerMetric (cs : contentsT) (path : List (List Char)) (m : metricD) :
    contentsT × Bool :=
  if path.isEmpty then (cs, false)
  else
    let r := registerDirectory cs path.dropLast
    if r.2 then
      modifyAt r.1 path.dropLast (fun sub => storeMetric sub (path.getLastD []) m)
    else (r.1, false)

/-- Resolution of a path from a node, descending only through directories:
`some` the reached entry, `none` when a segment is missing or an
intermediate node is a metric.  Used to state where a registration walk
first meets a metric. -/
def resolve : entry → List (List Char) → Option entry
  | e, [] => some e
  | entry.dir cs, part :: rest =>
      match lookupE cs part with
      | some e => resolve e rest
      | none => none
  | entry.metr _, _ :: _ => none

/-! ## Lookup and update lemmas -/

theorem lookupE_insertE_self {cs : contentsT} {name : List Char} (e : entry)
    (h : lookupE cs name = none) : lookupE (insertE cs name e) name = some e := by
  induction cs with
  | nil => simp [insertE, lookupE]
  | cons pr rest ih =>
      obtain ⟨n, e0⟩ := pr
      rw [lookupE] at h
      by_cases hn : n = name
      · rw [if_pos hn] at h
        exact absurd h (by simp)
      · rw [if_neg hn] at h
        show lookupE ((n, e0) :: (rest ++ [(name, e)])) name = some e
        rw [lookupE, if_neg hn]
        exact ih h

theorem lookupE_insertE_ne {cs : contentsT} {name s : List Char} (e : entry)
    (h : s ≠ name) : lookupE (insertE cs name e) s = lookupE cs s := by
  induction cs with
  | nil =>
      have hne : ¬ (name = s) := fun he => h he.symm
      show lookupE [(name, e)] s = lookupE [] s
      simp only [lookupE, if_neg hne]
  | cons pr rest ih =>
      obtain ⟨n, e0⟩ := pr
      show lookupE ((n, e0) :: (rest ++ [(name, e)])) s = _
      rw [lookupE, lookupE]
      by_cases hn : n = s
      · rw [if_pos hn, if_pos hn]
      · rw [if_neg hn, if_neg hn]
        exact ih

theorem lookupE_updateE_self {cs : contentsT} {name : List Char} {x : entry} (e : entry)
    (h : lookupE cs name = some x) : lookupE (updateE cs name e) name = some e := by
  induction cs with
  | nil => simp [lookupE] at h
  | cons pr rest ih =>
      obtain ⟨n, e0⟩ := pr
      rw [lookupE] at h
      rw [updateE]
      by_cases hn : n = name
      · rw [if_pos hn, lookupE, if_pos hn]
      · rw [if_neg hn] at h
        rw [if_neg hn, lookupE, if_neg hn]
        exact ih h

theorem lookupE_updateE_ne {cs : contentsT} {name s : List Char} (e : entry)
    (h : s ≠ name) : lookupE (updateE cs name e) s = lookupE cs s := by
  induction cs with
  | nil => rfl
  | cons pr rest ih =>
      obtain ⟨n, e0⟩ := pr
      rw [updateE]
      by_cases hn : n = name
      · have hns : ¬ n = s := by
          rw [hn]
          exact fun he => h he.symm
        rw [if_pos hn, lookupE, lookupE, if_neg hns, if_neg hns]
      · rw [if_neg hn, lookupE, lookupE]
        by_cases hs : n = s
        · rw [if_pos hs, if_pos hs]
        · rw [if_neg hs, if_neg hs]
          exact ih

theorem updateE_self {cs : contentsT} {name : List Char} {e : entry}
    (h : lookupE cs name = some e) : updateE cs name e = cs := by
  induction cs with
  | nil => rfl
  | cons pr rest ih =>
      obtain ⟨n, e0⟩ := pr
      rw [lookupE] at h
      rw [updateE]
      by_cases hn : n = name
      · rw [if_pos hn] at h
        rw [if_pos hn, (Option.some_injective _ h : e0 = e)]
      · rw [if_neg hn] at h
        rw [if_neg hn, ih h]

/-! ## `registerDirectory` lemmas -/

theorem registerDirectory_noop {p : List (List Char)} :
    ∀ {cs sub : contentsT}, getDirectory cs p = some sub →
      registerDirectory cs p = (cs, true) := by
  induction p with
  | nil => intro cs sub _; rfl
  | cons part rest ih =>
      intro cs sub h
      rw [getDirectory] at h
      rw [registerDirectory]
      cases hl : lookupE cs part with
      | none => rw [hl] at h; exact absurd h (by simp)
      | some e =>
          rw [hl] at h
          cases e with
          | metr m => exact absurd h (by simp)
          | dir sub1 =>
              simp only at h
              rw [createDirIfNeeded, hl]
              simp only
              rw [ih h]
              simp only
              rw [updateE_self hl]

theorem registerDirectory_empty_ok : ∀ (p : List (List Char)),
    (registerDirectory [] p).2 = true
  | [] => rfl
  | part :: rest => by
      rw [registerDirectory, createDirIfNeeded]
      show (let r := registerDirectory [] rest;
        (updateE (insertE [] part (entry.dir [])) part (entry.dir r.1), r.2)).2 = true
      simp only
      exact registerDirectory_empty_ok rest

theorem registerDirectory_fail_unchanged {p : List (List Char)} :
    ∀ {cs : contentsT}, (registerDirectory cs p).2 = false →
      (registerDirectory cs p).1 = cs := by
  induction p with
  | nil => intro cs h; exact absurd h (by simp [registerDirectory])
  | cons part rest ih =>
      intro cs h
      rw [registerDirectory] at h ⊢
      cases hl : lookupE cs part with
      | none =>
          rw [createDirIfNeeded, hl] at h
          simp only at h
          exact absurd h (by simp [registerDirectory_empty_ok rest])
      | some e =>
          cases e with
          | metr m => rw [createDirIfNeeded, hl]
          | dir sub1 =>
              rw [createDirIfNeeded, hl] at h ⊢
              simp only at h ⊢
              rw [ih h, updateE_self hl]

theorem registerDirectory_ok_getDirectory {p : List (List Char)} :
    ∀ {cs : contentsT}, (registerDirectory cs p).2 = true →
      ∃ sub, getDirectory (registerDirectory cs p).1 p = some sub := by
  induction p with
  | nil => intro cs _; exact ⟨cs, rfl⟩
  | cons part rest ih =>
      intro cs h
      rw [registerDirectory] at h ⊢
      cases hl : lookupE cs part with
      | none =>
          rw [createDirIfNeeded, hl] at h ⊢
          simp only at h ⊢
          obtain ⟨sub, hsub⟩ := ih h
          refine ⟨sub, ?_⟩
          have hli : lookupE (insertE cs part (entry.dir [])) part = some (entry.dir []) :=
            lookupE_insertE_self _ hl
          rw [getDirectory, lookupE_updateE_self _ hli]
          exact hsub
      | some e =>
          cases e with
          | metr m =>
              rw [createDirIfNeeded, hl] at h
              exact absurd h (by simp)
          | dir sub1 =>
              rw [createDirIfNeeded, hl] at h ⊢
              simp only at h ⊢
              obtain ⟨sub, hsub⟩ := ih h
              refine ⟨sub, ?_⟩
              rw [getDirectory, lookupE_updateE_self _ hl]
              exact hsub

theorem registerDirectory_from_empty : ∀ (p : List (List Char)),
    getDirectory (registerDirectory [] p).1 p = some [] := by
  intro p
  induction p with
  | nil => rfl
  | cons part rest ih =>
      rw [registerDirectory, createDirIfNeeded]
      show getDirectory (updateE (insertE [] part (entry.dir [])) part
        (entry.dir (registerDirectory [] rest).1)) (part :: rest) = some []
      have hli : lookupE (insertE [] part (entry.dir [])) part = some (entry.dir []) :=
        lookupE_insertE_self _ rfl
      rw [getDirectory, lookupE_updateE_self _ hli]
      exact ih

theorem registerDirectory_fresh {p : List (List Char)} :
    ∀ {cs : contentsT}, (registerDirectory cs p).2 = true →
      getDirectory cs p = none →
      getDirectory (registerDirectory cs p).1 p = some [] := by
  induction p with
  | nil => intro cs _ hn; exact absurd hn (by simp [getDirectory])
  | cons part rest ih =>
      intro cs h hn
      rw [registerDirectory] at h ⊢
      rw [getDirectory] at hn
      cases hl : lookupE cs part with
      | none =>
          rw [createDirIfNeeded, hl] at h ⊢
          simp only at h ⊢
          have hli : lookupE (insertE cs part (entry.dir [])) part = some (entry.dir []) :=
            lookupE_insertE_self _ hl
          rw [getDirectory, lookupE_updateE_self _ hli]
          exact registerDirectory_from_empty rest
      | some e =>
          cases e with
          | metr m =>
              rw [createDirIfNeeded, hl] at h
              exact absurd h (by simp)
          | dir sub1 =>
              rw [hl] at hn
              simp only at hn
              rw [createDirIfNeeded, hl] at h ⊢
              simp only at h ⊢
              rw [getDirectory, lookupE_updateE_self _ hl]
              exact ih h hn

theorem registerDirectory_fail_iff {p : List (List Char)} :
    ∀ {cs : contentsT}, ((registerDirectory cs p).2 = false ↔
      ∃ i, i < p.length ∧
        ∃ mm, resolve (entry.dir cs) (p.take (i + 1)) = some (entry.metr mm)) := by
  induction p with
  | nil =>
      intro cs
      constructor
      · intro h
        exact absurd h (by simp [registerDirectory])
      · rintro ⟨i, hi, _⟩
        simp at hi
  | cons part rest ih =>
      intro cs
      rw [registerDirectory]
      cases hl : lookupE cs part with
      | none =>
          rw [createDirIfNeeded, hl]
          simp only
          constructor
          · intro h
            exact absurd h (by simp [registerDirectory_empty_ok rest])
          · rintro ⟨i, hi, mm, hmm⟩
            rw [List.take_succ_cons, resolve, hl] at hmm
            exact absurd hmm (by simp)
      | some e =>
          cases e with
          | metr m =>
              rw [createDirIfNeeded, hl]
              simp only
              constructor
              · intro _
                refine ⟨0, by simp, m, ?_⟩
                rw [List.take_succ_cons, List.take_zero, resolve, hl]
                rfl
              · intro _
                trivial
          | dir sub1 =>
              rw [createDirIfNeeded, hl]
              simp only
              rw [ih]
              constructor
              · rintro ⟨j, hj, mm, hmm⟩
                refine ⟨j + 1, by simp; omega, mm, ?_⟩
                rw [List.take_succ_cons, resolve, hl]
                exact hmm
              · rintro ⟨i, hi, mm, hmm⟩
                rw [List.take_succ_cons, resolve, hl] at hmm
                simp only at hmm
                cases i with
                | zero =>
                    rw [List.take_zero, resolve] at hmm
                    exact absurd hmm (by simp)
                | succ j =>
                    exact ⟨j, by simp at hi; omega, mm, hmm⟩

/-! ## `modifyAt` lemmas -/

theorem modifyAt_spec {q : List (List Char)} :
    ∀ {cs sub : contentsT} (f : contentsT → contentsT × Bool),
      getDirectory cs q = some sub →
      getDirectory (modifyAt cs q f).1 q = some (f sub).1 ∧
        (modifyAt cs q f).2 = (f sub).2 := by
  induction q with
  | nil =>
      intro cs sub f h
      rw [getDirectory] at h
      injection h with h
      subst h
      exact ⟨rfl, rfl⟩
  | cons part rest ih =>
      intro cs sub f h
      rw [getDirectory] at h
      cases hl : lookupE cs part with
      | none =>
          rw [hl] at h
          exact absurd h (by simp)
      | some e =>
          rw [hl] at h
          cases e with
          | metr m => exact absurd h (by simp)
          | dir sub1 =>
              simp only at h
              rw [modifyAt, hl]
              simp only
              obtain ⟨h1, h2⟩ := ih f h
              constructor
              · rw [getDirectory, lookupE_updateE_self _ hl]
                exact h1
              · exact h2

theorem modifyAt_noop {q : List (List Char)} :
    ∀ {cs sub : contentsT} (f : contentsT → contentsT × Bool),
      getDirectory cs q = some sub → (f sub).1 = sub →
      (modifyAt cs q f).1 = cs := by
  induction q with
  | nil =>
      intro cs sub f h hf
      rw [getDirectory] at h
      injection h with h
      subst h
      exact hf
  | cons part rest ih =>
      intro cs sub f h hf
      rw [getDirectory] at h
      cases hl : lookupE cs part with
      | none =>
          rw [hl] at h
          exact absurd h (by simp)
      | some e =>
          rw [hl] at h
          cases e with
          | metr m => exact absurd h (by simp)
          | dir sub1 =>
              simp only at h
              rw [modifyAt, hl]
              simp only
              rw [ih f h hf, updateE_self hl]

/-! ## C6: directory registration is idempotent -/

/-- C6: a `registerDirectory` walk whose segments are all already bound to
directories succeeds, modifies nothing, and returns the existing directory
(the node at that path — object identity is path identity here, since nodes
are never reparented); a second call after any successful call likewise
returns the same tree and the same directory.  It fails with `PathInUse`
exactly when some segment along the walk is already bound to a metric. -/
theorem C6_register_directory_idempotent (cs : contentsT) (p : List (List Char)) :
    (∀ sub, getDirectory cs p = some sub → registerDirectory cs p = (cs, true)) ∧
    (∀ t1, registerDirectory cs p = (t1, true) → registerDirectory t1 p = (t1, true)) ∧
    ((registerDirectory cs p).2 = false ↔
      ∃ i, i < p.length ∧
        ∃ mm, resolve (entry.dir cs) (p.take (i + 1)) = some (entry.metr mm)) := by
  refine ⟨?_, ?_, registerDirectory_fail_iff⟩
  · intro sub h
    exact registerDirectory_noop h
  · intro t1 h
    have h2 : (registerDirectory cs p).2 = true := by rw [h]
    obtain ⟨sub, hsub⟩ := registerDirectory_ok_getDirectory h2
    rw [h] at hsub
    exact registerDirectory_noop hsub

theorem C6_witness :
    registerDirectory [(['a'], entry.dir [])] [['a']] = ([(['a'], entry.dir [])], true) :=
  (C6_register_directory_idempotent [(['a'], entry.dir [])] [['a']]).1 [] rfl

/-! ## C9: failed metric registration and atomicity -/

theorem registerMetric_fail_unchanged (cs : contentsT) (p : List (List Char)) (m : metricD)
    (h : (registerMetric cs p m).2 = false) : (registerMetric cs p m).1 = cs := by
  by_cases hp : p.isEmpty
  · rw [registerMetric, if_pos hp]
  · rw [registerMetric, if_neg hp] at h ⊢
    by_cases hr : (registerDirectory cs p.dropLast).2 = true
    · rw [if_pos hr] at h ⊢
      cases hgd : getDirectory cs p.dropLast with
      | some sub0 =>
          have hnoop : registerDirectory cs p.dropLast = (cs, true) :=
            registerDirectory_noop hgd
          rw [hnoop] at h ⊢
          obtain ⟨h1, h2⟩ := modifyAt_spec
            (fun sub => storeMetric sub (p.getLastD []) m) hgd
          rw [h2] at h
          have hst : (storeMetric sub0 (p.getLastD []) m).1 = sub0 := by
            rw [storeMetric] at h ⊢
            cases hls : lookupE sub0 (p.getLastD []) with
            | some _ => rfl
            | none =>
                rw [hls] at h
                exact absurd h (by simp)
          exact modifyAt_noop _ hgd hst
      | none =>
          have hfr := registerDirectory_fresh hr hgd
          obtain ⟨h1, h2⟩ := modifyAt_spec
            (fun sub => storeMetric sub (p.getLastD []) m) hfr
          rw [h2] at h
          exact absurd h (by simp [storeMetric, lookupE])
    · rw [if_neg hr]
      exact registerDirectory_fail_unchanged (by simpa using hr)

/-- C9 is false of this code: failed registration never leaves partially
created ancestor directories behind, because `createDirIfNeeded` can only
hit a metric before the first fresh directory is created (everything below
a fresh directory is fresh and empty), and a final-segment conflict
requires all ancestors to pre-exist.  This is the negation of the claim. -/
theorem C9_counterexample :
    ¬ ∃ (cs : contentsT) (p : List (List Char)) (m : metricD),
        (registerMetric cs p m).2 = false ∧ (registerMetric cs p m).1 ≠ cs := by
  rintro ⟨cs, p, m, hfail, hch⟩
  exact hch (registerMetric_fail_unchanged cs p m hfail)

/-- C9 (amended): failed metric registration IS atomic — whenever
`registerMetric` reports `PathInUse`, the namespace is unchanged. -/
theorem C9_amended_atomic (cs : contentsT) (p : List (List Char)) (m : metricD)
    (h : (registerMetric cs p m).2 = false) : (registerMetric cs p m).1 = cs :=
  registerMetric_fail_unchanged cs p m h

theorem C9_witness :
    (registerMetric [(['a'], entry.metr ⟨[], 0, 0⟩)] [['a']] ⟨[], 0, 1⟩).1 =
      [(['a'], entry.metr ⟨[], 0, 0⟩)] :=
  C9_amended_atomic _ _ _ rfl

/-! ## C5: when metric registration fails -/

theorem take_dropLast_eq {α : Type} (p : List α) (j : ℕ) (h : j ≤ p.length - 1) :
    p.dropLast.take j = p.take j := by
  rw [List.dropLast_eq_take, List.take_take]
  congr 1
  omega

theorem registerMetric_ok_found {cs : contentsT} {p : List (List Char)} {m : metricD}
    (h : (registerMetric cs p m).2 = true) :
    getMetric (registerMetric cs p m).1 p = some m := by
  by_cases hp : p.isEmpty
  · rw [registerMetric, if_pos hp] at h
    exact absurd h (by simp)
  · rw [registerMetric, if_neg hp] at h ⊢
    by_cases hr : (registerDirectory cs p.dropLast).2 = true
    · rw [if_pos hr] at h ⊢
      cases hgd : getDirectory cs p.dropLast with
      | some sub0 =>
          have hnoop : registerDirectory cs p.dropLast = (cs, true) :=
            registerDirectory_noop hgd
          rw [hnoop] at h ⊢
          obtain ⟨h1, h2⟩ := modifyAt_spec
            (fun sub => storeMetric sub (p.getLastD []) m) hgd
          rw [h2] at h
          have hls : lookupE sub0 (p.getLastD []) = none := by
            rw [storeMetric] at h
            cases hls : lookupE sub0 (p.getLastD []) with
            | some _ =>
                rw [hls] at h
                exact absurd h (by simp)
            | none => rfl
          have hst : (storeMetric sub0 (p.getLastD []) m).1 =
              insertE sub0 (p.getLastD []) (entry.metr m) := by
            rw [storeMetric, hls]
          rw [hst] at h1
          rw [getMetric, getDirectoryOrMetric, if_neg hp, h1]
          simp only
          rw [lookupE_insertE_self _ hls]
      | none =>
          have hfr := registerDirectory_fresh hr hgd
          obtain ⟨h1, h2⟩ := modifyAt_spec
            (fun sub => storeMetric sub (p.getLastD []) m) hfr
          have hst : (storeMetric ([] : contentsT) (p.getLastD []) m).1 =
              [(p.getLastD [], entry.metr m)] := rfl
          rw [hst] at h1
          rw [getMetric, getDirectoryOrMetric, if_neg hp, h1]
          simp only
          rw [lookupE, if_pos rfl]
    · rw [if_neg hr] at h
      exact absurd h (by simp)

/-- C5: `registerMetric` reports `PathInUse` exactly when the parsed path
is empty, some proper ancestor of the path is already bound to a metric, or
the final segment is already bound to anything; otherwise it installs the
metric at the final segment (creating missing ancestor directories) and
succeeds, after which the metric is found at the path. -/
theorem C5_register_metric_path_in_use (cs : contentsT) (p : List (List Char)) (m : metricD) :
    ((registerMetric cs p m).2 = false ↔
      (p = [] ∨
        (∃ i, i + 1 < p.length ∧
          ∃ mm, resolve (entry.dir cs) (p.take (i + 1)) = some (entry.metr mm)) ∨
        getDirectoryOrMetric cs p ≠ (none, none))) ∧
    ((registerMetric cs p m).2 = true →
      getMetric (registerMetric cs p m).1 p = some m) := by
  refine ⟨?_, fun h => registerMetric_ok_found h⟩
  by_cases hp : p.isEmpty
  · have hpe : p = [] := by simpa using hp
    rw [registerMetric, if_pos hp]
    simp [hpe]
  · have hpe : p ≠ [] := by simpa using hp
    have hpos : 0 < p.length := List.length_pos.mpr hpe
    rw [registerMetric, if_neg hp]
    have hlen : p.dropLast.length = p.length - 1 := by simp
    have hlift : ((registerDirectory cs p.dropLast).2 = false ↔
        (∃ i, i + 1 < p.length ∧
          ∃ mm, resolve (entry.dir cs) (p.take (i + 1)) = some (entry.metr mm))) := by
      rw [registerDirectory_fail_iff]
      constructor
      · rintro ⟨i, hi, mm, hmm⟩
        rw [hlen] at hi
        refine ⟨i, by omega, mm, ?_⟩
        rw [← take_dropLast_eq p (i + 1) (by omega)]
        exact hmm
      · rintro ⟨i, hi, mm, hmm⟩
        refine ⟨i, by omega, mm, ?_⟩
        rw [take_dropLast_eq p (i + 1) (by omega)]
        exact hmm
    by_cases hr : (registerDirectory cs p.dropLast).2 = true
    · rw [if_pos hr]
      have hnof : ¬ (∃ i, i + 1 < p.length ∧
          ∃ mm, resolve (entry.dir cs) (p.take (i + 1)) = some (entry.metr mm)) := by
        rw [← hlift]
        simp [hr]
      cases hgd : getDirectory cs p.dropLast with
      | some sub0 =>
          have hnoop : registerDirectory cs p.dropLast = (cs, true) :=
            registerDirectory_noop hgd
          rw [hnoop]
          simp only
          obtain ⟨h1, h2⟩ := modifyAt_spec
            (fun sub => storeMetric sub (p.getLastD []) m) hgd
          rw [h2]
          have hst : ((storeMetric sub0 (p.getLastD []) m).2 = false ↔
              lookupE sub0 (p.getLastD []) ≠ none) := by
            rw [storeMetric]
            cases hls : lookupE sub0 (p.getLastD []) with
            | some _ => simp
            | none => simp
          rw [hst]
          have hgdom : (getDirectoryOrMetric cs p ≠ (none, none) ↔
              lookupE sub0 (p.getLastD []) ≠ none) := by
            rw [getDirectoryOrMetric, if_neg hp, hgd]
            simp only
            cases hls : lookupE sub0 (p.getLastD []) with
            | none => simp
            | some e => cases e <;> simp
          rw [hgdom]
          constructor
          · intro hl
            exact Or.inr (Or.inr hl)
          · rintro (hc | hc | hc)
            · exact absurd hc hpe
            · exact absurd hc hnof
            · exact hc
      | none =>
          have hfr := registerDirectory_fresh hr hgd
          obtain ⟨h1, h2⟩ := modifyAt_spec
            (fun sub => storeMetric sub (p.getLastD []) m) hfr
          rw [h2]
          have hgdom : getDirectoryOrMetric cs p = (none, none) := by
            rw [getDirectoryOrMetric, if_neg hp, hgd]
          constructor
          · intro hc
            exact absurd hc (by simp [storeMetric, lookupE])
          · rintro (hc | hc | hc)
            · exact absurd hc hpe
            · exact absurd hc hnof
            · exact absurd hgdom hc
    · rw [if_neg hr]
      have hf : (registerDirectory cs p.dropLast).2 = false := by simpa using hr
      constructor
      · intro _
        exact Or.inr (Or.inl (hlift.mp hf))
      · intro _
        rfl

theorem C5_witness :
    getMetric (registerMetric [] [['a']] ⟨[], 0, 0⟩).1 [['a']] = some ⟨[], 0, 0⟩ :=
  (C5_register_metric_path_in_use [] [['a']] ⟨[], 0, 0⟩).2 rfl

/-! ## C7: absolute-path round trip -/

theorem splitOn_cons_sep (xs : List Char) :
    List.splitOn '/' ('/' :: xs) = [] :: List.splitOn '/' xs := by
  simp [List.splitOn, List.splitOnP_cons]

theorem newPathSpec_absPathOf {p : List (List Char)} (hp : p ≠ [])
    (hseg : ∀ s ∈ p, ('/' : Char) ∉ s ∧ ¬(trimSpaceList s).isEmpty) :
    newPathSpec (absPathOf p) = p := by
  rw [newPathSpec, absPathOf, splitOn_cons_sep,
    List.splitOn_intercalate p '/' (fun l hl => (hseg l hl).1) hp]
  rw [List.filter_cons_of_neg (by decide)]
  rw [List.filter_eq_self.mpr]
  intro a ha
  simpa using (hseg a ha).2

/-- C7: for a metric successfully registered at segment path `p`, with
`P = absPathOf p` its absolute path (a `/`-prefixed, `/`-joined sequence of
the segments), parsing `P` recovers `p`, `GetMetric(P)` finds the metric,
and the found metric's `AbsPath()` (the rendering of the node's path from
the root) equals `P`; the absolute path of the root itself is `"/"`. -/
theorem C7_abs_path_round_trip (cs : contentsT) (p : List (List Char)) (m : metricD)
    (hseg : ∀ s ∈ p, ('/' : Char) ∉ s ∧ ¬(trimSpaceList s).isEmpty)
    (hp : p ≠ [])
    (hok : (registerMetric cs p m).2 = true) :
    newPathSpec (absPathOf p) = p ∧
    GetMetric (registerMetric cs p m).1 (absPathOf p) = some m ∧
    absPathOf (newPathSpec (absPathOf p)) = absPathOf p ∧
    absPathOf [] = ['/'] := by
  have hrt := newPathSpec_absPathOf hp hseg
  refine ⟨hrt, ?_, by rw [hrt], rfl⟩
  rw [GetMetric, hrt]
  exact registerMetric_ok_found hok

theorem C7_witness :
    newPathSpec (absPathOf [['a'], ['b']]) = [['a'], ['b']] ∧
    GetMetric (registerMetric [] [['a'], ['b']] ⟨[], 0, 0⟩).1
        (absPathOf [['a'], ['b']]) = some ⟨[], 0, 0⟩ ∧
    absPathOf (newPathSpec (absPathOf [['a'], ['b']])) = absPathOf [['a'], ['b']] ∧
    absPathOf [] = ['/'] :=
  C7_abs_path_round_trip [] [['a'], ['b']] ⟨[], 0, 0⟩ (by decide) (by decide) rfl

/-! ## C10: lookups on paths that parse to the empty sequence -/

/-- C10: every path string that parses to the empty segment sequence (such
as `""`, `"/"`, `"//"`) makes `GetMetric` return `none` — even at the
root — while `GetDirectory` returns the directory itself and
`GetDirectoryOrMetric` returns the directory paired with `none`; these
lookup functions build no new state.  The three concrete parses are
included as conjuncts. -/
theorem C10_empty_path_lookups (cs : contentsT) (s : List Char)
    (hs : newPathSpec s = []) :
    GetMetric cs s = none ∧
    GetDirectory cs s = some cs ∧
    GetDirectoryOrMetric cs s = (some cs, none) ∧
    newPathSpec [] = [] ∧ newPathSpec ['/'] = [] ∧ newPathSpec ['/', '/'] = [] := by
  refine ⟨?_, ?_, ?_, by decide, by decide, by decide⟩
  · rw [GetMetric, getMetric, hs]
    rfl
  · rw [GetDirectory, hs]
    rfl
  · rw [GetDirectoryOrMetric, hs]
    rfl

theorem C10_witness :
    GetMetric ([] : contentsT) ['/'] = none ∧
    GetDirectory ([] : contentsT) ['/'] = some [] ∧
    GetDirectoryOrMetric ([] : contentsT) ['/'] = (some [], none) ∧
    newPathSpec [] = [] ∧ newPathSpec ['/'] = [] ∧ newPathSpec ['/', '/'] = [] :=
  C10_empty_path_lookups [] ['/'] (by decide)

/-! ## C8: depth-first traversal (`GetAllMetrics`) -/

/-- `directory.List()` from the source: the contents in ascending name
order (`sort.Sort(byName(...))`; Go compares strings bytewise, modelled by
the lexicographic order on `List Char`; keys are unique, so the sorted
result is unique regardless of sorting algorithm). -/
def directoryList (cs : contentsT) : contentsT :=
  cs.insertionSort (fun a b => a.1 ≤ b.1)

theorem sizeOf_list_perm {α : Type} [SizeOf α] {l1 l2 : List α} (h : l1.Perm l2) :
    sizeOf l1 = sizeOf l2 := by
  induction h with
  | nil => rfl
  | cons a _ ih => simp only [List.cons.sizeOf_spec, ih]
  | swap a b l =>
      simp only [List.cons.sizeOf_spec]
      omega
  | trans _ _ ih1 ih2 => exact ih1.trans ih2

theorem sizeOf_directoryList (cs : contentsT) : sizeOf (directoryList cs) = sizeOf cs :=
  sizeOf_list_perm (List.perm_insertionSort _ cs)

mutual

/-- The body of `directory.GetAllMetrics` applied to one listed entry: a
directory recurses, a metric leaf is handed to the sink (`Collect`).  The
returned list records the metrics delivered, in order; `some e` aborts. -/
def getAllEntry (e : entry) (collect : metricD → Option ℕ) : List metricD × Option ℕ :=
  match e with
  | entry.metr m => ([m], collect m)
  | entry.dir cs => getAllList (directoryList cs) collect
termination_by sizeOf e
decreasing_by
  simp only [entry.dir.sizeOf_spec, sizeOf_directoryList]
  omega

/-- The loop of `directory.GetAllMetrics` over the (already sorted)
entries: stop at the first entry whose processing reports an error and
surface that error; otherwise continue. -/
def getAllList (l : contentsT) (collect : metricD → Option ℕ) : List metricD × Option ℕ :=
  match l with
  | [] => ([], none)
  | (_, e) :: rest =>
      match getAllEntry e collect with
      | (out, some err) => (out, some err)
      | (out, none) =>
          let r := getAllList rest collect
          (out ++ r.1, r.2)
termination_by sizeOf l
decreasing_by
  · simp only [List.cons.sizeOf_spec, Prod.mk.sizeOf_spec]
    omega
  · simp only [List.cons.sizeOf_spec]
    omega

end

/-- `directory.GetAllMetrics(collector)` from the source: traverse the
name-sorted contents depth first. -/
def GetAllMetrics (cs : contentsT) (collect : metricD → Option ℕ) :
    List metricD × Option ℕ :=
  getAllList (directoryList cs) collect

mutual

/-- The metric leaves of an entry's subtree in depth-first pre-order with
name-sorted children, each paired with its relative segment path. -/
def preorderEntry (e : entry) : List (List (List Char) × metricD) :=
  match e with
  | entry.metr m => [([], m)]
  | entry.dir cs => preorderList (directoryList cs)
termination_by sizeOf e
decreasing_by
  simp only [entry.dir.sizeOf_spec, sizeOf_directoryList]
  omega

/-- Pre-order metric leaves of a list of named entries, in list order. -/
def preorderList (l : contentsT) : List (List (List Char) × metricD) :=
  match l with
  | [] => []
  | (name, e) :: rest =>
      (preorderEntry e).map (fun pm => (name :: pm.1, pm.2)) ++ preorderList rest
termination_by sizeOf l
decreasing_by
  · simp only [List.cons.sizeOf_spec, Prod.mk.sizeOf_spec]
    omega
  · simp only [List.cons.sizeOf_spec]
    omega

end

/-- Modelled from the spec: "for each metric leaf, call
`sink.Collect(metric)`; if Collect returns an error, abort the traversal
and surface that error" — sequential delivery of a flat metric list with
short-circuit on the first sink error. -/
def specDeliver (ms : List metricD) (collect : metricD → Option ℕ) :
    List metricD × Option ℕ :=
  match ms with
  | [] => ([], none)
  | m :: rest =>
      match collect m with
      | some e => ([m], some e)
      | none =>
          let r := specDeliver rest collect
          (m :: r.1, r.2)

/-- Well-formedness of a namespace node: unique child names throughout
(Go's `map` guarantees this). -/
inductive wfEntry : entry → Prop
  | metr (m : metricD) : wfEntry (entry.metr m)
  | dir (cs : contentsT) : (cs.map Prod.fst).Nodup →
      (∀ pr ∈ cs, wfEntry pr.2) → wfEntry (entry.dir cs)

theorem specDeliver_append (xs ys : List metricD) (c : metricD → Option ℕ) :
    ((specDeliver xs c).2 = none →
      specDeliver (xs ++ ys) c =
        ((specDeliver xs c).1 ++ (specDeliver ys c).1, (specDeliver ys c).2)) ∧
    (∀ e, (specDeliver xs c).2 = some e → specDeliver (xs ++ ys) c = specDeliver xs c) := by
  induction xs with
  | nil =>
      constructor
      · intro _
        show specDeliver ys c = ([] ++ (specDeliver ys c).1, (specDeliver ys c).2)
        rw [List.nil_append]
      · intro e he
        exact absurd he (by simp [specDeliver])
  | cons m rest ih =>
      rw [List.cons_append, specDeliver, specDeliver]
      cases hc : c m with
      | some e =>
          constructor
          · intro hn
            exact absurd hn (by simp)
          · intro e' _
            rfl
      | none =>
          simp only
          constructor
          · intro hn
            rw [ih.1 hn, List.cons_append]
          · intro e' he
            rw [ih.2 e' he]

theorem getAll_eq_specDeliver_aux : ∀ (n : ℕ),
    (∀ (e : entry), sizeOf e ≤ n → ∀ c,
        getAllEntry e c = specDeliver ((preorderEntry e).map Prod.snd) c) ∧
    (∀ (l : contentsT), sizeOf l ≤ n → ∀ c,
        getAllList l c = specDeliver ((preorderList l).map Prod.snd) c) := by
  intro n
  induction n using Nat.strong_induction_on with
  | _ n ih =>
    constructor
    · intro e he c
      cases e with
      | metr m =>
          rw [getAllEntry, preorderEntry]
          show ([m], c m) = specDeliver [m] c
          rw [specDeliver]
          cases hc : c m with
          | some e => rfl
          | none => rfl
      | dir cs =>
          rw [getAllEntry, preorderEntry]
          have hsz : sizeOf (directoryList cs) < n := by
            have h1 := sizeOf_directoryList cs
            have h2 : sizeOf (entry.dir cs) = 1 + sizeOf cs := by
              simp [entry.dir.sizeOf_spec]
            omega
          exact (ih _ hsz).2 _ (le_refl _) c
    · intro l hl c
      cases l with
      | nil =>
          rw [getAllList, preorderList]
          rfl
      | cons pr0 rest =>
          obtain ⟨name, e⟩ := pr0
          have hsize : sizeOf ((name, e) :: rest) =
              1 + (1 + sizeOf name + sizeOf e) + sizeOf rest := by
            simp [List.cons.sizeOf_spec, Prod.mk.sizeOf_spec]
          have hse : sizeOf e < n := by omega
          have hsr : sizeOf rest < n := by omega
          have hE := (ih _ hse).1 e (le_refl _) c
          have hL := (ih _ hsr).2 rest (le_refl _) c
          rw [getAllList, preorderList, hE, hL, List.map_append, List.map_map]
          have hcomp : (Prod.snd ∘ fun pm : List (List Char) × metricD =>
              (name :: pm.1, pm.2)) = (Prod.snd : List (List Char) × metricD → metricD) := by
            funext pm
            rfl
          rw [hcomp]
          cases hS : specDeliver ((preorderEntry e).map Prod.snd) c with
          | mk out1 r1 =>
              cases r1 with
              | some err =>
                  rw [(specDeliver_append _ _ c).2 err (by rw [hS])]
                  rw [hS]
              | none =>
                  rw [(specDeliver_append _ _ c).1 (by rw [hS])]
                  rw [hS]

theorem preorderList_path_shape : ∀ (l : contentsT) (pm : List (List Char) × metricD),
    pm ∈ preorderList l → ∃ pr ∈ l, ∃ q, pm.1 = pr.1 :: q := by
  intro l
  induction l with
  | nil =>
      intro pm h
      rw [preorderList] at h
      exact absurd h (by simp)
  | cons pr0 rest ih =>
      obtain ⟨name, e⟩ := pr0
      intro pm h
      rw [preorderList] at h
      rcases List.mem_append.mp h with h1 | h2
      · obtain ⟨pm0, _, rfl⟩ := List.mem_map.mp h1
        exact ⟨(name, e), by simp, pm0.1, rfl⟩
      · obtain ⟨pr, hpr, q, hq⟩ := ih pm h2
        exact ⟨pr, by simp [hpr], q, hq⟩

instance : IsTotal (List Char × entry) (fun a b => a.1 ≤ b.1) :=
  ⟨fun a b => le_total a.1 b.1⟩

instance : IsTrans (List Char × entry) (fun a b => a.1 ≤ b.1) :=
  ⟨fun _ _ _ hab hbc => le_trans hab hbc⟩

theorem preorder_paths_sorted_aux : ∀ (n : ℕ),
    (∀ (e : entry), sizeOf e ≤ n → wfEntry e →
        ((preorderEntry e).map Prod.fst).Pairwise (List.Lex (· < ·))) ∧
    (∀ (l : contentsT), sizeOf l ≤ n →
        (l.map Prod.fst).Sorted (· ≤ ·) → (l.map Prod.fst).Nodup →
        (∀ pr ∈ l, wfEntry pr.2) →
        ((preorderList l).map Prod.fst).Pairwise (List.Lex (· < ·))) := by
  intro n
  induction n using Nat.strong_induction_on with
  | _ n ih =>
    constructor
    · intro e he hwf
      cases e with
      | metr m =>
          rw [preorderEntry]
          simp
      | dir cs =>
          rw [preorderEntry]
          cases hwf with
          | dir _ hnd hsub =>
              have hsz : sizeOf (directoryList cs) < n := by
                have h1 := sizeOf_directoryList cs
                have h2 : sizeOf (entry.dir cs) = 1 + sizeOf cs := by
                  simp [entry.dir.sizeOf_spec]
                omega
              apply (ih _ hsz).2 _ (le_refl _)
              · exact List.pairwise_map.mpr
                  (List.sorted_insertionSort (fun a b : List Char × entry => a.1 ≤ b.1) cs)
              · exact ((List.perm_insertionSort
                  (fun a b : List Char × entry => a.1 ≤ b.1) cs).map Prod.fst).nodup_iff.mpr hnd
              · intro pr hpr
                exact hsub pr ((List.perm_insertionSort _ cs).mem_iff.mp hpr)
    · intro l hl hsort hnd hwfl
      cases l with
      | nil =>
          rw [preorderList]
          simp
      | cons pr0 rest =>
          obtain ⟨name, e⟩ := pr0
          rw [List.map_cons] at hsort hnd
          have hsize : sizeOf ((name, e) :: rest) =
              1 + (1 + sizeOf name + sizeOf e) + sizeOf rest := by
            simp [List.cons.sizeOf_spec, Prod.mk.sizeOf_spec]
          have hse : sizeOf e < n := by omega
          have hsr : sizeOf rest < n := by omega
          rw [preorderList, List.map_append, List.pairwise_append]
          refine ⟨?_, ?_, ?_⟩
          · have hE := (ih _ hse).1 e (le_refl _) (hwfl (name, e) (by simp))
            rw [List.map_map, List.pairwise_map]
            have hE' := List.pairwise_map.mp hE
            exact hE'.imp (fun h => List.Lex.cons h)
          · apply (ih _ hsr).2 rest (le_refl _)
            · exact (List.pairwise_cons.mp hsort).2
            · exact (List.nodup_cons.mp hnd).2
            · intro pr hpr
              exact hwfl pr (by simp [hpr])
          · intro a ha b hb
            rw [List.map_map] at ha
            obtain ⟨pm0, _, rfl⟩ := List.mem_map.mp ha
            obtain ⟨pm1, hpm1, rfl⟩ := List.mem_map.mp hb
            obtain ⟨pr, hpr, q, hq⟩ := preorderList_path_shape rest pm1 hpm1
            rw [hq]
            show List.Lex (· < ·) (name :: pm0.1) (pr.1 :: q)
            apply List.Lex.rel
            have hmem : pr.1 ∈ rest.map Prod.fst := List.mem_map.mpr ⟨pr, hpr, rfl⟩
            have hle : name ≤ pr.1 := (List.pairwise_cons.mp hsort).1 pr.1 hmem
            have hne : name ≠ pr.1 := by
              intro heq
              exact (List.nodup_cons.mp hnd).1 (heq ▸ hmem)
            exact lt_of_le_of_ne hle hne

/-- C8: `GetAllMetrics` delivers to the sink exactly the metric leaves of
the subtree in depth-first pre-order with children in ascending name
order — equivalently, it behaves as sequential delivery of the pre-order
metric list, stopping at (and returning) the first sink error with no
further metric delivered — it never delivers a directory (only `metricD`
values reach the sink), and under unique child names the pre-order path
sequence is strictly sorted lexicographically, so the delivered sequence
equals the sorted list of the subtree's metric paths. -/
theorem C8_get_all_metrics (cs : contentsT) (collect : metricD → Option ℕ)
    (hwf : wfEntry (entry.dir cs)) :
    GetAllMetrics cs collect =
      specDeliver ((preorderList (directoryList cs)).map Prod.snd) collect ∧
    ((preorderList (directoryList cs)).map Prod.fst).Pairwise (List.Lex (· < ·)) := by
  constructor
  · exact (getAll_eq_specDeliver_aux (sizeOf (directoryList cs))).2 _ (le_refl _) collect
  · have h := (preorder_paths_sorted_aux (sizeOf (entry.dir cs))).1
      (entry.dir cs) (le_refl _) hwf
    rw [preorderEntry] at h
    exact h

theorem C8_witness :
    (GetAllMetrics [(['b'], entry.metr ⟨['b'], 0, 0⟩), (['a'], entry.metr ⟨['a'], 0, 1⟩)]
        (fun _ => none) =
      specDeliver ((preorderList (directoryList
        [(['b'], entry.metr ⟨['b'], 0, 0⟩), (['a'], entry.metr ⟨['a'], 0, 1⟩)])).map Prod.snd)
        (fun _ => none)) ∧
    ((preorderList (directoryList
        [(['b'], entry.metr ⟨['b'], 0, 0⟩),
         (['a'], entry.metr ⟨['a'], 0, 1⟩)])).map Prod.fst).Pairwise (List.Lex (· < ·)) :=
  C8_get_all_metrics _ _ (wfEntry.dir _ (by decide) (by
    intro pr hpr
    rcases List.mem_cons.mp hpr with h | h
    · rw [h]
      exact wfEntry.metr _
    · rcases List.mem_cons.mp h with h2 | h2
      · rw [h2]
        exact wfEntry.metr _
      · exact absurd h2 (by simp)))
